import Mathlib

set_option maxRecDepth 40000

/-!
Shallow embedding of the cfixed-string crate (src/lib.rs).

The crate provides one type, CFixedString, a C string buffer with a fixed
512 byte inline array (variant Local) that is promoted to a heap CString
(variant Heap) once accumulated content no longer fits.

Modelling choices:
- a byte memory is a function Nat → Nat; byte strings are List Nat;
- the Local array is carried as an index function, because new() leaves it
  uninitialized (MaybeUninit::uninit().assume_init()): the arbitrary junk
  contents are a parameter of new;
- panics are modelled by an Except error: the unreachable!() arm of
  write_str, and the .unwrap() of CString::new when the bytes hold an
  interior nul;
- String::from_utf8_lossy is the identity on valid UTF-8 content, and the
  write path only ever receives valid UTF-8, so the text views are modelled
  at the byte level.
-/

/-- Constant STRING_SIZE from the source: the inline array capacity. -/
def STRING_SIZE : Nat := 512

/-- The two panics that can abort write_str: the unreachable!() arm taken
with a Heap buffer in the small-length branch, and the unwrap of
CString::new when the accumulated bytes hold an interior nul. -/
inductive AbortKind where
  | unreachableArm
  | interiorNul
deriving DecidableEq

/-- The enum CFixedString: Local carries the fixed 512 byte array (as an
index function, bytes past the written region being uninitialized) and the
current length; Heap carries the raw bytes owned by the CString (content
plus trailing nul) and the current length. -/
inductive CFixedString where
  | Local (s : Nat → Nat) (len : Nat)
  | Heap (s : List Nat) (len : Nat)

/-- CString::new: scans the bytes for an interior nul, failing if one is
found, and otherwise stores the bytes with a trailing nul appended. -/
def CStringNew (bytes : List Nat) : Option (List Nat) :=
  if 0 ∈ bytes then none else some (bytes ++ [0])

/-- A single byte write into a byte memory, as done by the raw pointer
write of the terminator in write_str. -/
def store (m : Nat → Nat) (i v : Nat) : Nat → Nat :=
  fun j => if j = i then v else m j

/-- ptr::copy of the bytes of src into memory m at offset off (the two
regions never overlap in the crate). -/
def memCopy (m : Nat → Nat) (off : Nat) (src : List Nat) : Nat → Nat :=
  fun j => if off ≤ j ∧ j - off < src.length then src.getD (j - off) 0 else m j

namespace CFixedString

/-- new(): a Local buffer of length 0 over the uninitialized inline array;
the junk parameter models its arbitrary initial contents. No terminator is
written. -/
def new (junk : Nat → Nat) : CFixedString := .Local junk 0

/-- as_str(): the content bytes, indices 0 up to len. For Local the bytes
are read from the array; for Heap they are the first len bytes of the raw
CString buffer. -/
def as_str : CFixedString → List Nat
  | .Local s len => (List.range len).map s
  | .Heap s len => s.take len

/-- is_allocated(): true iff the string has been heap allocated. -/
def is_allocated : CFixedString → Bool
  | .Local _ _ => false
  | _ => true

/-- write_str from the fmt::Write impl. Computes cur_len from as_str, then
matches on cur_len plus the added length: below STRING_SIZE it copies the
bytes into the inline array at offset cur_len, writes a 0 terminator at the
new length and updates len (the Heap case there is unreachable!()); at or
above STRING_SIZE it builds the concatenated string and replaces self with
a Heap buffer made by CString::new, whose unwrap panics on an interior
nul. -/
def writeStr (self : CFixedString) (s : List Nat) : Except AbortKind CFixedString :=
  let cur_len := (as_str self).length
  let len := cur_len + s.length
  if len < STRING_SIZE then
    match self with
    | .Local ls _ => .ok (.Local (store (memCopy ls cur_len s) len 0) len)
    | .Heap _ _ => .error AbortKind.unreachableArm
  else
    match CStringNew (as_str self ++ s) with
    | some raw => .ok (.Heap raw len)
    | none => .error AbortKind.interiorNul

/-- From for str: construct an empty buffer with new() and write the whole
text into it once. -/
def fromStr (junk : Nat → Nat) (t : List Nat) : Except AbortKind CFixedString :=
  writeStr (new junk) t

/-- The byte sequence exposed through Deref to CStr, and equally the bytes
behind the as_ptr() pointer: for Local a slice of len + 1 bytes starting at
the array, for Heap the full raw CString buffer. -/
def derefBytes : CFixedString → List Nat
  | .Local s len => (List.range (len + 1)).map s
  | .Heap s _ => s

/-- CStr::to_bytes on the Deref view: all bytes except the final one. -/
def to_bytes (self : CFixedString) : List Nat :=
  (derefBytes self).dropLast

/-- to_string(): String::from_utf8_lossy over to_bytes. Lossy decoding is
the identity on valid UTF-8, so at the byte level the view is to_bytes. -/
def to_string (self : CFixedString) : List Nat :=
  to_bytes self

/-- Sequential application of write_str to a list of fragments, stopping at
the first panic. -/
def writeAll : CFixedString → List (List Nat) → Except AbortKind CFixedString
  | b, [] => .ok b
  | b, f :: fs =>
    match writeStr b f with
    | .ok b2 => writeAll b2 fs
    | .error e => .error e

/-- State invariant of buffers produced by successful writes: a Local
buffer has len below STRING_SIZE; a Heap buffer has len at least
STRING_SIZE and its raw bytes are a nul free content list of length len
followed by one trailing nul. -/
def StateInv : CFixedString → Prop
  | .Local _ len => len < STRING_SIZE
  | .Heap raw len => STRING_SIZE ≤ len ∧ ∃ c, c.length = len ∧ 0 ∉ c ∧ raw = c ++ [0]

/-- Buffers reachable by the public interface: new() followed by any
sequence of successful write_str calls. fromStr is new followed by one
write, hence covered. -/
inductive Reachable : CFixedString → Prop where
  | init (junk : Nat → Nat) : Reachable (new junk)
  | step {b b' : CFixedString} (s : List Nat) :
      Reachable b → writeStr b s = .ok b' → Reachable b'

/-- Buffers reachable through at least one successful write, every written
fragment being free of nul bytes. -/
inductive ReachableNZ : CFixedString → Prop where
  | first {b : CFixedString} (junk : Nat → Nat) (s : List Nat) :
      0 ∉ s → writeStr (new junk) s = .ok b → ReachableNZ b
  | step {b b' : CFixedString} (s : List Nat) :
      ReachableNZ b → 0 ∉ s → writeStr b s = .ok b' → ReachableNZ b'

end CFixedString

namespace CFixedString

lemma as_str_new (junk : Nat → Nat) : as_str (new junk) = [] := rfl

lemma length_as_str_local (m : Nat → Nat) (len : Nat) :
    (as_str (.Local m len)).length = len := by
  simp [as_str]

lemma map_getD_range (s : List Nat) :
    (List.range s.length).map (fun i => s.getD i 0) = s := by
  apply List.ext_getElem
  · simp
  · intro n h1 h2
    rw [List.getElem_map, List.getElem_range, List.getD_eq_getElem s 0 h2]

/-- Characterization of every successful write_str call: the content grows
by exactly the written bytes, the exposed byte sequence is the new content
followed by one nul, and the state invariant holds afterwards. -/
lemma writeStr_ok_spec {b b' : CFixedString} {s : List Nat}
    (h : writeStr b s = .ok b') :
    as_str b' = as_str b ++ s ∧ derefBytes b' = as_str b' ++ [0] ∧ StateInv b' := by
  simp only [writeStr] at h
  split at h
  next hlt =>
    cases b with
    | Heap raw len => exact Except.noConfusion h
    | Local m len =>
        rw [length_as_str_local] at h hlt
        injection h with h2
        subst h2
        have hstr : as_str (CFixedString.Local
            (store (memCopy m len s) (len + s.length) 0) (len + s.length)) =
            as_str (CFixedString.Local m len) ++ s := by
          simp only [as_str, List.range_add, List.map_append, List.map_map]
          congr 1
          · apply List.map_congr_left
            intro i hi
            rw [List.mem_range] at hi
            simp only [Function.comp, store, memCopy]
            rw [if_neg (by omega), if_neg (by omega)]
          · have hpt : ∀ i ∈ List.range s.length,
                (store (memCopy m len s) (len + s.length) 0) (len + i) = s.getD i 0 := by
              intro i hi
              rw [List.mem_range] at hi
              simp only [store, memCopy]
              rw [if_neg (by omega), if_pos (by omega)]
              congr 1
              omega
            calc (List.range s.length).map
                  ((store (memCopy m len s) (len + s.length) 0) ∘ (fun i => len + i))
                = (List.range s.length).map (fun i => s.getD i 0) :=
                  List.map_congr_left hpt
              _ = s := map_getD_range s
        refine ⟨hstr, ?_, ?_⟩
        · simp only [derefBytes, List.range_succ, List.map_append, List.map_cons,
            List.map_nil]
          have hterm : (store (memCopy m len s) (len + s.length) 0) (len + s.length) = 0 := by
            simp [store]
          rw [hterm]
          rfl
        · exact hlt
  next hge =>
    split at h
    next raw heq =>
      injection h with h2
      subst h2
      unfold CStringNew at heq
      split at heq
      next => exact Option.noConfusion heq
      next hnotmem =>
        injection heq with h3
        subst h3
        have hlen : (as_str b ++ s).length = (as_str b).length + s.length :=
          List.length_append _ _
        have htake : as_str (CFixedString.Heap ((as_str b ++ s) ++ [0])
            ((as_str b).length + s.length)) = as_str b ++ s := by
          simp only [as_str]
          exact List.take_left' hlen
        refine ⟨htake, ?_, ?_⟩
        · rw [htake]
          rfl
        · refine ⟨by omega, as_str b ++ s, hlen, hnotmem, rfl⟩
    next heq => exact Except.noConfusion h

/-- Every buffer reachable through the public interface satisfies the state
invariant. -/
lemma reachable_inv {b : CFixedString} (h : Reachable b) : StateInv b := by
  induction h with
  | init junk =>
      show StateInv (CFixedString.Local junk 0)
      simp only [StateInv]
      decide
  | step s hb hw ih => exact (writeStr_ok_spec hw).2.2

lemma as_str_heap_inv {raw : List Nat} {len : Nat}
    (hb : StateInv (CFixedString.Heap raw len)) :
    (as_str (CFixedString.Heap raw len)).length = len ∧
      0 ∉ as_str (CFixedString.Heap raw len) := by
  obtain ⟨hge, c, hc, hnc, hr⟩ := hb
  have hstr : as_str (CFixedString.Heap raw len) = c := by
    show raw.take len = c
    rw [hr, List.take_left' hc]
  rw [hstr]
  exact ⟨hc, hnc⟩

/-- On a buffer satisfying the invariant, write_str never reaches the
unreachable arm of the small-length branch. -/
lemma writeStr_ne_unreachable {b : CFixedString} (hb : StateInv b) (s : List Nat) :
    writeStr b s ≠ .error AbortKind.unreachableArm := by
  intro h
  simp only [writeStr] at h
  split at h
  next hlt =>
    cases b with
    | Local m len => exact Except.noConfusion h
    | Heap raw len =>
        have hcur := (as_str_heap_inv hb).1
        have hge : STRING_SIZE ≤ len := hb.1
        rw [hcur] at hlt
        omega
  next hge =>
    split at h
    next raw heq => exact Except.noConfusion h
    next heq =>
      injection h with h2
      exact AbortKind.noConfusion h2

/-- A successful write on a promoted buffer leaves it promoted. -/
lemma writeStr_ok_heap {b b' : CFixedString} {s : List Nat}
    (hb : is_allocated b = true) (h : writeStr b s = .ok b') :
    is_allocated b' = true := by
  cases b with
  | Local m len => exact Bool.noConfusion hb
  | Heap raw len =>
      simp only [writeStr] at h
      split at h
      next hlt => exact Except.noConfusion h
      next hge =>
        split at h
        next raw2 heq =>
          injection h with h2
          subst h2
          rfl
        next heq => exact Except.noConfusion h

/-- Writing the empty fragment on a buffer satisfying the invariant
succeeds and changes neither the content nor the storage state. -/
lemma writeStr_nil_ok {b : CFixedString} (hb : StateInv b) :
    ∃ b', writeStr b [] = .ok b' ∧ is_allocated b' = is_allocated b := by
  cases b with
  | Local m len =>
      have hlen : len < STRING_SIZE := hb
      have hcond : (as_str (CFixedString.Local m len)).length +
          ([] : List Nat).length < STRING_SIZE := by
        rw [length_as_str_local]
        simpa using hlen
      simp only [writeStr]
      rw [if_pos hcond]
      exact ⟨_, rfl, rfl⟩
  | Heap raw len =>
      have hcur := (as_str_heap_inv hb).1
      have hnc := (as_str_heap_inv hb).2
      have hge : STRING_SIZE ≤ len := hb.1
      have hcond : ¬ ((as_str (CFixedString.Heap raw len)).length +
          ([] : List Nat).length < STRING_SIZE) := by
        rw [hcur]
        simp only [List.length_nil]
        omega
      simp only [writeStr]
      rw [if_neg hcond]
      have hsome : CStringNew (as_str (CFixedString.Heap raw len) ++ []) =
          some ((as_str (CFixedString.Heap raw len) ++ []) ++ [0]) := by
        unfold CStringNew
        rw [if_neg (by simpa using hnc)]
      rw [hsome]
      exact ⟨_, rfl, rfl⟩

lemma writeAll_ok_as_str {fs : List (List Nat)} :
    ∀ {b b' : CFixedString}, writeAll b fs = .ok b' →
      as_str b' = as_str b ++ fs.flatten := by
  induction fs with
  | nil =>
      intro b b' h
      simp only [writeAll] at h
      injection h with h2
      subst h2
      simp
  | cons f fs ih =>
      intro b b' h
      simp only [writeAll] at h
      cases hw : writeStr b f with
      | error e => rw [hw] at h; exact Except.noConfusion h
      | ok b1 =>
          rw [hw] at h
          rw [ih h, (writeStr_ok_spec hw).1, List.flatten_cons, List.append_assoc]

lemma writeAll_ok_heap {fs : List (List Nat)} :
    ∀ {b b' : CFixedString}, is_allocated b = true → writeAll b fs = .ok b' →
      is_allocated b' = true := by
  induction fs with
  | nil =>
      intro b b' hb h
      simp only [writeAll] at h
      injection h with h2
      subst h2
      exact hb
  | cons f fs ih =>
      intro b b' hb h
      simp only [writeAll] at h
      cases hw : writeStr b f with
      | error e => rw [hw] at h; exact Except.noConfusion h
      | ok b1 =>
          rw [hw] at h
          exact ih (writeStr_ok_heap hb hw) h

/-- A buffer reached through nul free writes, at least one of them, exposes
its content followed by one nul and its content holds no nul byte. -/
lemma reachableNZ_spec {b : CFixedString} (h : ReachableNZ b) :
    derefBytes b = as_str b ++ [0] ∧ 0 ∉ as_str b := by
  induction h with
  | first junk s hs hw =>
      refine ⟨(writeStr_ok_spec hw).2.1, ?_⟩
      rw [(writeStr_ok_spec hw).1, as_str_new]
      simpa using hs
  | step s hb hs hw ih =>
      refine ⟨(writeStr_ok_spec hw).2.1, ?_⟩
      rw [(writeStr_ok_spec hw).1]
      simp only [List.mem_append, not_or]
      exact ⟨ih.2, hs⟩

/-- Storage state of a buffer built by from: heap promoted exactly when the
input length reaches STRING_SIZE. -/
lemma fromStr_is_allocated {junk : Nat → Nat} {t : List Nat} {b : CFixedString}
    (h : fromStr junk t = .ok b) :
    is_allocated b = decide (STRING_SIZE ≤ t.length) := by
  simp only [fromStr, writeStr, as_str_new, List.length_nil, List.nil_append,
    Nat.zero_add] at h
  split at h
  next hlt =>
    injection h with h2
    subst h2
    exact (decide_eq_false (by omega)).symm
  next hge =>
    split at h
    next raw heq =>
      injection h with h2
      subst h2
      exact (decide_eq_true (by omega)).symm
    next heq => exact Except.noConfusion h

end CFixedString

open CFixedString

/-- Claim C1: for every valid UTF-8 input text of byte length L, the buffer
built by from is heap promoted exactly when L is at least 512, so L below
512 stays inline; in particular 511 is not promoted while 512 and 513 are
promoted (witnessed at those three lengths). -/
theorem C1_promotion_threshold (junk : Nat → Nat) (t : List Nat) (b : CFixedString)
    (h : fromStr junk t = .ok b) :
    is_allocated b = decide (STRING_SIZE ≤ t.length) :=
  fromStr_is_allocated h

/-- Witness for C1 at the boundary lengths 511, 512 and 513. -/
theorem C1_witness :
    (∃ b, fromStr (fun _ => 0) (List.replicate 511 97) = .ok b ∧
      is_allocated b = false) ∧
    (∃ b, fromStr (fun _ => 0) (List.replicate 512 97) = .ok b ∧
      is_allocated b = true) ∧
    (∃ b, fromStr (fun _ => 0) (List.replicate 513 97) = .ok b ∧
      is_allocated b = true) := by
  refine ⟨⟨_, rfl, ?_⟩, ⟨_, rfl, ?_⟩, ⟨_, rfl, ?_⟩⟩
  · exact (C1_promotion_threshold (fun _ => 0) (List.replicate 511 97) _ rfl).trans
      (by decide)
  · exact (C1_promotion_threshold (fun _ => 0) (List.replicate 512 97) _ rfl).trans
      (by decide)
  · exact (C1_promotion_threshold (fun _ => 0) (List.replicate 513 97) _ rfl).trans
      (by decide)

/-- Claim C2: round trip, the lossy text view of a buffer built from T
equals T (at the byte level; lossy decoding is the identity on the valid
UTF-8 content), in both the inline and the promoted case. -/
theorem C2_roundtrip (junk : Nat → Nat) (t : List Nat) (b : CFixedString)
    (h : fromStr junk t = .ok b) : to_string b = t := by
  have h1 := (writeStr_ok_spec h).1
  have h2 := (writeStr_ok_spec h).2.1
  rw [as_str_new, List.nil_append] at h1
  show (derefBytes b).dropLast = t
  rw [h2, h1, List.dropLast_concat]

/-- Witness for C2: one inline case and one promoted case. -/
theorem C2_witness :
    (∃ b, fromStr (fun _ => 0) [104, 101, 106] = .ok b ∧
      to_string b = [104, 101, 106]) ∧
    (∃ b, fromStr (fun _ => 0) (List.replicate 520 104) = .ok b ∧
      to_string b = List.replicate 520 104) :=
  ⟨⟨_, rfl, C2_roundtrip (fun _ => 0) [104, 101, 106] _ rfl⟩,
    ⟨_, rfl, C2_roundtrip (fun _ => 0) (List.replicate 520 104) _ rfl⟩⟩

/-- Counterexample to claim C4: the claim places the promotion boundary at
threshold minus one, so it asserts that a 511 byte input promotes; the code
keeps the 511 byte input inline. -/
theorem C4_counterexample :
    ∃ b, fromStr (fun _ => 0) (List.replicate 511 122) = .ok b ∧
      is_allocated b = false :=
  ⟨_, rfl, rfl⟩

/-- Claim C4 amended: the boundary is at the threshold itself, L below 512
stays inline and L at least 512 promotes. -/
theorem C4_amended_boundary (junk : Nat → Nat) (t : List Nat) (b : CFixedString)
    (h : fromStr junk t = .ok b) :
    (t.length < STRING_SIZE → is_allocated b = false) ∧
    (STRING_SIZE ≤ t.length → is_allocated b = true) := by
  constructor
  · intro hlt
    rw [fromStr_is_allocated h]
    exact decide_eq_false (by omega)
  · intro hge
    rw [fromStr_is_allocated h]
    exact decide_eq_true hge

/-- Witness for the amended C4 at length 600. -/
theorem C4_witness :
    ∃ b, fromStr (fun _ => 0) (List.replicate 600 98) = .ok b ∧
      is_allocated b = true := by
  refine ⟨_, rfl, ?_⟩
  exact (C4_amended_boundary (fun _ => 0) (List.replicate 600 98) _ rfl).2 (by decide)

/-- Counterexample to claim C5: a valid UTF-8 input of length 512 holding
an interior nul byte reaches the promotion path, where the unwrap of
CString::new panics, so construction does not succeed for every valid UTF-8
input with interior nul bytes. -/
theorem C5_counterexample :
    fromStr (fun _ => 0) (0 :: List.replicate 511 97) =
      .error AbortKind.interiorNul := rfl

/-- Claim C5 amended: construction succeeds for every valid UTF-8 input
that is shorter than 512 bytes or holds no interior nul byte; only an input
of length at least 512 with an interior nul aborts. -/
theorem C5_amended_total (junk : Nat → Nat) (t : List Nat)
    (h : t.length < STRING_SIZE ∨ 0 ∉ t) :
    ∃ b, fromStr junk t = .ok b := by
  simp only [fromStr, writeStr, as_str_new, List.length_nil, List.nil_append,
    Nat.zero_add]
  by_cases hlt : t.length < STRING_SIZE
  · rw [if_pos hlt]
    exact ⟨_, rfl⟩
  · rw [if_neg hlt]
    have hnm : 0 ∉ t := h.resolve_left hlt
    unfold CStringNew
    rw [if_neg hnm]
    exact ⟨_, rfl⟩

/-- Witness for the amended C5: the inline path accepts a nul byte. -/
theorem C5_witness : ∃ b, fromStr (fun _ => 0) [0] = .ok b :=
  C5_amended_total _ [0] (Or.inl (by decide))

/-- Counterexample to claim C3: writing the valid UTF-8 text made of one
nul byte yields the exposed sequence 0, 0, which has a zero byte before the
final terminator, refuting the no-embedded-zero part of the claim on a
reachable buffer; and a freshly constructed buffer with no write exposes
whatever the uninitialized first array byte holds, here the byte 1, so its
view is not of the form content followed by one zero either. -/
theorem C3_counterexample :
    (∃ b, fromStr (fun _ => 0) [0] = .ok b ∧ Reachable b ∧
      derefBytes b = [0, 0] ∧ 0 ∈ as_str b) ∧
    derefBytes (CFixedString.new fun _ => 1) = [1] := by
  refine ⟨⟨_, rfl, Reachable.step [0] (Reachable.init _) rfl, rfl, ?_⟩, rfl⟩
  decide

/-- Claim C3 amended: for every buffer reached through at least one write,
all written fragments holding no nul byte, the exposed byte sequence is
exactly the appended content followed by one zero byte, with no zero byte
occurring before that terminator. -/
theorem C3_amended_cstr_contract (b : CFixedString) (h : ReachableNZ b) :
    derefBytes b = as_str b ++ [0] ∧ 0 ∉ as_str b :=
  reachableNZ_spec h

/-- Witness for the amended C3 on a two byte write. -/
theorem C3_witness :
    ∃ b, writeStr (CFixedString.new fun _ => 0) [104, 105] = .ok b ∧
      derefBytes b = as_str b ++ [0] ∧ 0 ∉ as_str b :=
  ⟨_, rfl, C3_amended_cstr_contract _
    (ReachableNZ.first (fun _ => 0) [104, 105] (by decide) rfl)⟩

/-- Claim C6: appending fragments in order yields exactly the concatenation
of all the fragments, irrespective of the step at which promotion
happens. -/
theorem C6_concat_law (junk : Nat → Nat) (fs : List (List Nat)) (b : CFixedString)
    (h : writeAll (new junk) fs = .ok b) :
    as_str b = fs.flatten := by
  rw [writeAll_ok_as_str h, as_str_new, List.nil_append]

/-- Witness for C6 on two fragments. -/
theorem C6_witness :
    ∃ b, writeAll (CFixedString.new fun _ => 0) [[104], [105, 106]] = .ok b ∧
      as_str b = [104, 105, 106] := by
  refine ⟨_, rfl, ?_⟩
  exact (C6_concat_law (fun _ => 0) [[104], [105, 106]] _ rfl).trans (by decide)

/-- Claim C7: promotion is irreversible: starting from any reachable heap
promoted buffer, every successful sequence of further writes ends in a heap
promoted buffer. -/
theorem C7_promotion_irreversible (b : CFixedString) (fs : List (List Nat))
    (b' : CFixedString) (_hr : Reachable b) (hb : is_allocated b = true)
    (h : writeAll b fs = .ok b') :
    is_allocated b' = true :=
  writeAll_ok_heap hb h

/-- Witness for C7: a promoted 512 byte buffer stays promoted after one
more write. -/
theorem C7_witness :
    ∃ b b', fromStr (fun _ => 0) (List.replicate 512 97) = .ok b ∧
      writeAll b [[98]] = .ok b' ∧ is_allocated b' = true := by
  refine ⟨_, _, rfl, rfl, ?_⟩
  exact C7_promotion_irreversible _ [[98]] _
    (Reachable.step (List.replicate 512 97) (Reachable.init _) rfl) rfl rfl

/-- Claim C8: appending the empty fragment to any reachable buffer
succeeds, preserves the content and preserves the storage state, never
spuriously promoting; and a buffer built from the empty text is not
promoted and its text view is empty. -/
theorem C8_empty_append (b : CFixedString) (h : Reachable b) :
    (∃ b', writeStr b [] = .ok b' ∧ as_str b' = as_str b ∧
      is_allocated b' = is_allocated b) ∧
    (∀ junk : Nat → Nat, ∃ e, fromStr junk [] = .ok e ∧
      is_allocated e = false ∧ to_string e = []) := by
  constructor
  · obtain ⟨b', hw, ha⟩ := writeStr_nil_ok (reachable_inv h)
    refine ⟨b', hw, ?_, ha⟩
    simpa using (writeStr_ok_spec hw).1
  · intro junk
    exact ⟨_, rfl, rfl, rfl⟩

/-- Witness for C8 on the freshly constructed buffer. -/
theorem C8_witness :
    ∃ b', writeStr (CFixedString.new fun _ => 0) [] = .ok b' ∧
      as_str b' = as_str (CFixedString.new fun _ => 0) ∧
      is_allocated b' = is_allocated (CFixedString.new fun _ => 0) :=
  (C8_empty_append _ (Reachable.init _)).1

/-- Claim C9 fails on the code: new() transmutes an uninitialized array and
never writes a terminator, so deref on a fresh buffer exposes the junk the
first array byte happens to hold; with junk byte 1 the view is the byte 1,
not the empty C string, and only with junk byte 0 does it coincide with the
claimed view. After the first write, even an empty one, the terminator is
in place. -/
theorem C9_new_exposes_uninitialized :
    derefBytes (CFixedString.new fun _ => 1) = [1] ∧
    derefBytes (CFixedString.new fun _ => 0) = [0] ∧
    (∃ b, writeStr (CFixedString.new fun _ => 1) [] = .ok b ∧
      derefBytes b = [0]) :=
  ⟨rfl, rfl, ⟨_, rfl, rfl⟩⟩

/-- Claim C10: every reachable buffer has len below 512 in the Local
variant and len at least 512 in the Heap variant, and consequently
write_str never executes the unreachable arm of its small-length branch. -/
theorem C10_reachable_invariant (b : CFixedString) (h : Reachable b) :
    (∀ m len, b = CFixedString.Local m len → len < STRING_SIZE) ∧
    (∀ raw len, b = CFixedString.Heap raw len → STRING_SIZE ≤ len) ∧
    (∀ s, writeStr b s ≠ .error AbortKind.unreachableArm) := by
  have hinv := reachable_inv h
  refine ⟨?_, ?_, writeStr_ne_unreachable hinv⟩
  · intro m len hb
    subst hb
    exact hinv
  · intro raw len hb
    subst hb
    exact hinv.1

/-- Witness for C10: a write on a reachable promoted buffer does not hit
the unreachable arm. -/
theorem C10_witness :
    ∃ b, fromStr (fun _ => 0) (List.replicate 512 99) = .ok b ∧
      writeStr b [100] ≠ .error AbortKind.unreachableArm := by
  refine ⟨_, rfl, ?_⟩
  exact (C10_reachable_invariant _
    (Reachable.step (List.replicate 512 99) (Reachable.init _) rfl)).2.2 [100]
